import Mathlib

/-!
Shallow embedding of the InsightCast semantic-search core (the web worker
source): the sentence-window chunker, the query-intent classifier, the
heuristic answer boost, and the retriever/re-ranker with per-segment
de-duplication and final score normalization.

Modeling conventions:
* JS strings are modeled as `List Char`; the string operations used by the
  source (`match`, `trim`, `toLowerCase`, `includes`, `indexOf`, `slice`,
  `join`) are modeled character-exactly for ASCII text.
* JS numbers are modeled as `ℚ`; the literals `0.1`, `0.3`, `1.1`, `0.99`,
  `0.4` become `1/10`, `3/10`, `11/10`, `99/100`, `2/5`.  Division of
  rationals by zero is `0` (JS would produce `NaN`; the only place a zero
  denominator can arise is the chunk-ratio computation on the empty text,
  which the indexing pipeline never reaches because empty segment texts are
  filtered before chunking).
* The external Orama index engine is a parameter `engine : OramaQuery →
  List Hit`; the worker issues exactly one hybrid query per search call.
-/

/-- `Math.min` on rationals, written with an explicit branch so that it
evaluates by kernel reduction; equal to `min` (see `jsMin_eq_min`). -/
def jsMin (a b : ℚ) : ℚ := if a ≤ b then a else b

/-- `Math.max` on rationals; equal to `max` (see `jsMax_eq_max`). -/
def jsMax (a b : ℚ) : ℚ := if a ≤ b then b else a

/-- `s.includes(pat)`: `pat` occurs contiguously in `s`. -/
def jsIncludes (s pat : List Char) : Bool :=
  (List.range (s.length + 1)).any fun i => pat.isPrefixOf (s.drop i)

/-- Sentence-terminator characters of the chunker regex, the class `[.!?]`. -/
def isTermChar (c : Char) : Bool := c = '.' || c = '!' || c = '?'

/-- Closing-quote characters of the chunker regex: the double quote
(codepoint 34) and the single quote (codepoint 39). -/
def isQuoteChar (c : Char) : Bool := c.toNat = 34 || c.toNat = 39

/-- ASCII whitespace removed by `String.prototype.trim`. -/
def isJsSpace (c : Char) : Bool :=
  c = ' ' || c = '\t' || c = '\n' || c = '\r' || c = '\x0b' || c = '\x0c'

/-- The global regex scan `text.match(/[^.!?]+[.!?]+["']?|[^.!?]+$/g)`: at
each position, either match a sentence (a non-terminator body, a terminator
run, an optional closing quote), match a trailing body running to the end of
the text, or, when no alternative matches at this position (the current
character is a terminator), advance one character.  The fuel argument only
bounds the recursion: every recursive call consumes at least one character,
so `length + 1` steps always suffice and the zero-fuel branch is
unreachable from `scanSentences`. -/
def scanSentencesF : Nat → List Char → List (List Char)
  | 0, _ => []
  | _, [] => []
  | fuel + 1, c :: cs =>
    if isTermChar c then
      scanSentencesF fuel cs
    else
      let body := (c :: cs).takeWhile (fun d => !isTermChar d)
      let rest := (c :: cs).dropWhile (fun d => !isTermChar d)
      match rest with
      | [] => [body]
      | _ :: _ =>
        let puncts := rest.takeWhile isTermChar
        let rest2 := rest.dropWhile isTermChar
        match rest2 with
        | [] => [body ++ puncts]
        | q :: rs =>
          if isQuoteChar q then (body ++ puncts ++ [q]) :: scanSentencesF fuel rs
          else (body ++ puncts) :: scanSentencesF fuel rest2

/-- All matches of the sentence regex over the text, in order. -/
def scanSentences (cs : List Char) : List (List Char) :=
  scanSentencesF (cs.length + 1) cs

/-- `s.trim()` restricted to ASCII whitespace. -/
def trimWS (cs : List Char) : List Char :=
  ((cs.dropWhile isJsSpace).reverse.dropWhile isJsSpace).reverse

/-- `text.match(sentenceRegex)?.map(s => s.trim()).filter(s => s.length > 0)
|| [text]`: `match` yields `null` exactly when there is no match, in which
case the fallback is the single pseudo-sentence `[text]`; otherwise the
matches are trimmed and the empty ones dropped.  An empty *filtered* array is
not replaced by the fallback, because an empty JS array is truthy. -/
def sentencesOf (text : List Char) : List (List Char) :=
  match scanSentences text with
  | [] => [text]
  | m :: ms => ((m :: ms).map trimWS).filter fun s => 0 < s.length

/-- A chunk produced by the chunker: the window text and the two
character-offset ratios. -/
structure Chunk where
  text : List Char
  startRatio : ℚ
  endRatio : ℚ

deriving instance DecidableEq for Chunk

/-- `windowSentences.join(' ')`. -/
def joinSp : List (List Char) → List Char
  | [] => []
  | [s] => s
  | s :: t :: rest => s ++ ' ' :: joinSp (t :: rest)

/-- `text.indexOf(pat)`: the index of the first occurrence of `pat` in
`text`, and `-1` when there is none. -/
def jsIndexOf (s pat : List Char) : Int :=
  match (List.range (s.length + 1)).find? (fun i => pat.isPrefixOf (s.drop i)) with
  | some i => (i : Int)
  | none => -1

def WINDOW_SIZE : Nat := 3
def STRIDE : Nat := 1

/-- The chunk pushed for one window: the joined window text, and the start
and end character offsets divided by the text length, clamped into `[0, 1]`
(`startRatio = max(0, chunkStartChar / text.length)`,
`endRatio = min(1, chunkEndChar / text.length)`). -/
def mkChunk (text : List Char) (windowSentences : List (List Char)) : Chunk :=
  let chunkText := joinSp windowSentences
  let chunkStartChar : Int := jsIndexOf text (windowSentences.headD [])
  let chunkEndChar : Int := chunkStartChar + chunkText.length
  { text := chunkText
    startRatio := jsMax 0 ((chunkStartChar : ℚ) / ((text.length : ℚ)))
    endRatio := jsMin 1 ((chunkEndChar : ℚ) / ((text.length : ℚ))) }

/-- The chunking loop `for (let i = 0; i < sentences.length; i += STRIDE)`:
the remaining suffix of the sentence list stands for the loop index
(`STRIDE = 1`, so one loop step drops one leading sentence), the window is
the next `WINDOW_SIZE` sentences, and the loop breaks right after pushing
the window that reaches the last sentence
(`i + WINDOW_SIZE >= sentences.length`, i.e. the current suffix has at most
`WINDOW_SIZE` sentences).  The source also breaks on an empty window; that
guard is kept although it can only fire on an empty sentence list. -/
def chunkLoop (text : List Char) : List (List Char) → List Chunk
  | [] => []
  | s :: rest =>
    let windowSentences := (s :: rest).take WINDOW_SIZE
    if windowSentences.isEmpty then []
    else
      let c := mkChunk text windowSentences
      if (s :: rest).length ≤ WINDOW_SIZE then [c]
      else c :: chunkLoop text rest

/-- `chunkTextWithWindow(text)` from the worker source. -/
def chunkTextWithWindow (text : List Char) : List Chunk :=
  chunkLoop text (sentencesOf text)

/-- JS `\w` word characters, the class `[A-Za-z0-9_]`. -/
def isWordChar (c : Char) : Bool := c.isAlphanum || c = '_'

/-- Word-character test seen by `\b`, with out-of-string treated as
non-word. -/
def wordAt : Option Char → Bool
  | some c => isWordChar c
  | none => false

/-- `\b<phrase>\b` matches at position `i` of `q`: the phrase is a prefix of
the suffix at `i`, and the word-character status flips at both edges.  This
is exact for the non-empty phrases appearing in `QUESTION_PATTERNS`. -/
def boundedMatchAt (phrase q : List Char) (i : Nat) : Bool :=
  phrase.isPrefixOf (q.drop i)
    && (wordAt (if i = 0 then none else q[i - 1]?) != wordAt q[i]?)
    && (wordAt (q[i + phrase.length - 1]?) != wordAt (q[i + phrase.length]?))

/-- One alternative of a pattern matches somewhere in `q`. -/
def testPhraseWB (phrase q : List Char) : Bool :=
  (List.range (q.length + 1)).any (boundedMatchAt phrase q)

/-- `pattern.test(query)` for one case-insensitive pattern
`/\b(p₁|p₂|…)\b/i`: some alternative matches with word boundaries at some
position of the lowercased query (the alternatives are lowercase, so
lowercasing the query realizes the `i` flag for ASCII text). -/
def patternTest (phrases : List String) (query : List Char) : Bool :=
  phrases.any fun p => testPhraseWB (p.toList) (query.map Char.toLower)

/-- The `QUESTION_PATTERNS` table, in source order, one entry per intent
label with the alternatives of its regex. -/
def QUESTION_PATTERNS : List (String × List String) :=
  [("definition", ["what is", "what are", "define", "meaning of", "definition"]),
   ("origin", ["where does", "where do", "origin", "source", "come from", "comes from"]),
   ("howTo", ["how can", "how do", "how to", "ways to", "improve", "develop", "better"]),
   ("example", ["example", "examples", "instance", "such as", "like what", "give me", "show me", "real life"]),
   ("author", ["who", "author", "person", "says", "believes", "believed", "troward"])]

/-- `detectQuestionIntent(query)`: collect every label whose pattern tests
true, and fall back to the singleton `['general']` when none does. -/
def detectQuestionIntent (query : List Char) : List String :=
  let intents := (QUESTION_PATTERNS.filter fun tp => patternTest tp.2 query).map Prod.fst
  if 0 < intents.length then intents else ["general"]

/-- The `ANSWER_INDICATORS` record; the lookup `ANSWER_INDICATORS[intent]
|| []` yields `[]` for any label outside the table (notably `general`). -/
def ANSWER_INDICATORS : String → List String
  | "definition" => ["is", "means", "refers to", "defined as", "is like"]
  | "origin" => ["comes from", "source", "part of", "connected to"]
  | "howTo" => ["by", "through", "learn to", "practice", "listening", "trust"]
  | "example" => ["for example", "such as", "like when", "imagine", "think of"]
  | "author" => ["says", "believes", "believed", "according to"]
  | _ => []

/-- Body of the inner indicator loop:
`if (lowerText.includes(indicator)) boost += 0.1`. -/
def boostStep (lowerText : List Char) (boost : ℚ) (ind : String) : ℚ :=
  if jsIncludes lowerText (ind.toList) then boost + 1/10 else boost

/-- `calculateHeuristicBoost(text, intents)`: sum `0.1` per indicator phrase
of a detected intent contained in the lowercased text, then cap at `0.3`. -/
def calculateHeuristicBoost (text : List Char) (intents : List String) : ℚ :=
  let lowerText := text.map Char.toLower
  let boost := intents.foldl
    (fun b intent => (ANSWER_INDICATORS intent).foldl (boostStep lowerText) b) 0
  jsMin boost (3/10)

/-- The number of (intent, indicator-phrase) pairs whose phrase occurs in
the lowercased text; stated-only helper used to characterize the boost. -/
def countIndicatorMatches (text : List Char) (intents : List String) : Nat :=
  let lowerText := text.map Char.toLower
  (intents.map fun intent =>
    ((ANSWER_INDICATORS intent).filter fun ind => jsIncludes lowerText (ind.toList)).length).sum

/-- A transcript segment as produced by the ASR stage (the source field
`end` is a Lean keyword and is called `endTime` here). -/
structure TranscriptSegment where
  id : String
  start : ℚ
  endTime : ℚ
  text : List Char

deriving instance DecidableEq for TranscriptSegment

/-- A document stored in the Orama index, one per surviving chunk. -/
structure OramaDoc where
  id : String
  segmentId : String
  text : List Char
  fullSegmentText : List Char
  start : ℚ
  endTime : ℚ
  embedding : List ℚ

deriving instance DecidableEq for OramaDoc

/-- A scored hit returned by the hybrid query. -/
structure Hit where
  document : OramaDoc
  score : ℚ

deriving instance DecidableEq for Hit

/-- The request object passed to `search(oramaDb, …)`; the embedded query
vector itself lives with the external engine. -/
structure OramaQuery where
  mode : String
  term : List Char
  vectorProperty : String
  properties : List String
  limit : Nat
  similarity : ℚ

deriving instance DecidableEq for OramaQuery

/-- The segment carried by a search result. -/
structure Segment where
  id : String
  text : List Char
  start : ℚ
  endTime : ℚ

deriving instance DecidableEq for Segment

/-- A search result: a segment plus its (eventually normalized) score. -/
structure SearchResult where
  segment : Segment
  score : ℚ

deriving instance DecidableEq for SearchResult

def EMBEDDING_DIM : Nat := 384

/-- The hybrid query issued by `semanticSearch`: `mode: 'hybrid'`,
keyword search on the `text` property, vector search on `embedding`,
`limit: 20`, `similarity: 0.4`.  The candidate limit is the literal `20`;
the caller-requested result limit does not enter the request. -/
def searchRequest (query : List Char) : OramaQuery :=
  { mode := "hybrid", term := query, vectorProperty := "embedding",
    properties := ["text"], limit := 20, similarity := 2/5 }

/-- The documents built and indexed for one transcript segment during
transcription: one per chunk of the segment's text, skipping any chunk whose
embedding does not have length `EMBEDDING_DIM`; each document carries the
chunk text for keyword search and the full segment text plus the segment's
time range for display. -/
def documentsToIndexFor (embedder : List Char → List ℚ) (segment : TranscriptSegment) :
    List OramaDoc :=
  (chunkTextWithWindow segment.text).enum.filterMap fun ji =>
    let embedding := embedder ji.2.text
    if embedding.length = EMBEDDING_DIM then
      some { id := segment.id ++ "_" ++ toString ji.1, segmentId := segment.id,
             text := ji.2.text, fullSegmentText := segment.text,
             start := segment.start, endTime := segment.endTime,
             embedding := embedding }
    else none

/-- `finalScore = hit.score + heuristicBoost`. -/
def finalScoreOf (intents : List String) (hit : Hit) : ℚ :=
  hit.score + calculateHeuristicBoost hit.document.text intents

/-- The value stored for a winning hit: the full segment text and the
segment's original time range (not the chunk text), with the boosted
score. -/
def scoredEntryOf (doc : OramaDoc) (finalScore : ℚ) : SearchResult :=
  { segment := { id := doc.segmentId, text := doc.fullSegmentText,
                 start := doc.start, endTime := doc.endTime },
    score := finalScore }

/-- `scoredResults.get(segmentId)` over the insertion-ordered JS `Map`,
modeled as an association list. -/
def assocFind (k : String) : List (String × SearchResult) → Option SearchResult
  | [] => none
  | kv :: rest => if kv.1 = k then some kv.2 else assocFind k rest

/-- `scoredResults.set(segmentId, v)`: replace the entry in place when the
key exists (JS `Map` keeps the original insertion position), append
otherwise. -/
def mapSet (k : String) (v : SearchResult) :
    List (String × SearchResult) → List (String × SearchResult)
  | [] => [(k, v)]
  | kv :: rest => if kv.1 = k then (k, v) :: rest else kv :: mapSet k v rest

/-- One iteration of the re-ranking loop over the hybrid hits: boost the
hit, then keep it for its segment only when the segment is new or the
boosted score strictly beats the stored one. -/
def rerankStep (intents : List String) (acc : List (String × SearchResult)) (hit : Hit) :
    List (String × SearchResult) :=
  let finalScore := finalScoreOf intents hit
  match assocFind hit.document.segmentId acc with
  | none => mapSet hit.document.segmentId (scoredEntryOf hit.document finalScore) acc
  | some existing =>
    if existing.score < finalScore then
      mapSet hit.document.segmentId (scoredEntryOf hit.document finalScore) acc
    else acc

/-- The `scoredResults` map after the re-ranking loop. -/
def scoredResults (intents : List String) (hits : List Hit) :
    List (String × SearchResult) :=
  hits.foldl (rerankStep intents) []

/-- The sort order of `.sort((a, b) => b.score - a.score)`: descending
score. -/
def byScoreDesc (a b : SearchResult) : Prop := b.score ≤ a.score

instance : DecidableRel byScoreDesc :=
  fun a b => inferInstanceAs (Decidable (b.score ≤ a.score))

instance : IsTotal SearchResult byScoreDesc := ⟨fun a b => le_total b.score a.score⟩

instance : IsTrans SearchResult byScoreDesc := ⟨fun _ _ _ hab hbc => le_trans hbc hab⟩

/-- `Array.from(scoredResults.values()).sort((a, b) => b.score - a.score)
.slice(0, limit)`.  `Array.prototype.sort` is a stable sort, whose output is
uniquely determined by the comparator and the input order; it is realized
here by the stable `List.insertionSort`. -/
def rankedResults (engine : OramaQuery → List Hit) (query : List Char) (limit : Nat) :
    List SearchResult :=
  let intents := detectQuestionIntent query
  let hits := engine (searchRequest query)
  (List.insertionSort byScoreDesc ((scoredResults intents hits).map Prod.snd)).take limit

/-- The final normalization: when any results exist, divide every score by
`maxScore * 1.1` (the top, i.e. first, score times `1.1`) and cap at
`0.99`. -/
def normalizeScores : List SearchResult → List SearchResult
  | [] => []
  | r0 :: rs =>
    let maxScore := r0.score
    (r0 :: rs).map fun r => { r with score := jsMin (r.score / (maxScore * (11/10))) (99/100) }

/-- `semanticSearch(query, limit)` after the models are ready: intent
detection, one hybrid query, heuristic re-ranking with per-segment
de-duplication, descending sort, truncation to `limit`, and score
normalization. -/
def semanticSearch (engine : OramaQuery → List Hit) (query : List Char) (limit : Nat) :
    List SearchResult :=
  normalizeScores (rankedResults engine query limit)

/-- The worker message handler applies the default limit:
`semanticSearch(message.query, message.limit ?? 10)`. -/
def onSearchMessage (engine : OramaQuery → List Hit) (query : List Char)
    (limitQ : Option Nat) : List SearchResult :=
  semanticSearch engine query (limitQ.getD 10)

/-- Default result used only to state facts about list heads. -/
def dfltResult : SearchResult :=
  { segment := { id := "", text := [], start := 0, endTime := 0 }, score := 0 }

/-- Invariant of the re-ranking fold over the hybrid hits: the map keys are
distinct segment ids, each stored result's segment id is its key, each
stored result comes from a processed hit whose boosted score is maximal
among processed hits of that segment, and every processed hit's segment has
an entry. -/
structure RerankInv (intents : List String) (processed : List Hit)
    (acc : List (String × SearchResult)) : Prop where
  nodupKeys : (acc.map Prod.fst).Nodup
  keyEq : ∀ kv ∈ acc, (Prod.snd kv).segment.id = kv.1
  best : ∀ kv ∈ acc, ∃ hit ∈ processed, hit.document.segmentId = kv.1 ∧
    kv.2 = scoredEntryOf hit.document (finalScoreOf intents hit) ∧
    ∀ hit2 ∈ processed, hit2.document.segmentId = kv.1 →
      finalScoreOf intents hit2 ≤ finalScoreOf intents hit
  complete : ∀ hit ∈ processed, hit.document.segmentId ∈ acc.map Prod.fst

/-- Concrete documents and engine used by witness theorems. -/
def demoDocA : OramaDoc :=
  { id := "a_0", segmentId := "a", text := ("first chunk of a".toList),
    fullSegmentText := ("full text of segment a".toList),
    start := 0, endTime := 4, embedding := [] }

def demoDocA2 : OramaDoc :=
  { id := "a_1", segmentId := "a", text := ("second chunk of a".toList),
    fullSegmentText := ("full text of segment a".toList),
    start := 0, endTime := 4, embedding := [] }

def demoDocB : OramaDoc :=
  { id := "b_0", segmentId := "b", text := ("only chunk of b".toList),
    fullSegmentText := ("full text of segment b".toList),
    start := 4, endTime := 9, embedding := [] }

def demoEngine : OramaQuery → List Hit :=
  fun _ => [{ document := demoDocA, score := 1 },
            { document := demoDocA2, score := 1/2 },
            { document := demoDocB, score := 3/4 }]

def demoQuery : List Char := "zzz".toList

lemma jsMin_eq_min (a b : ℚ) : jsMin a b = min a b := by
  rw [jsMin, min_def]

lemma jsMax_eq_max (a b : ℚ) : jsMax a b = max a b := by
  rw [jsMax, max_def]

lemma foldl_boostStep (lt : List Char) (inds : List String) (b : ℚ) :
    inds.foldl (boostStep lt) b
      = b + ((inds.filter fun ind => jsIncludes lt (ind.toList)).length : ℚ) / 10 := by
  induction inds generalizing b with
  | nil => simp
  | cons ind rest ih =>
    rw [List.foldl_cons, ih, List.filter_cons, boostStep]
    by_cases h : jsIncludes lt (ind.toList)
    · rw [if_pos h, if_pos h, List.length_cons]
      push_cast
      ring
    · rw [if_neg h, if_neg h]

lemma foldl_boost_outer (lt : List Char) (intents : List String) (b : ℚ) :
    intents.foldl (fun b intent => (ANSWER_INDICATORS intent).foldl (boostStep lt) b) b
      = b + ((intents.map fun intent =>
          ((ANSWER_INDICATORS intent).filter fun ind => jsIncludes lt (ind.toList)).length).sum : ℚ)
          / 10 := by
  induction intents generalizing b with
  | nil => simp
  | cons intent rest ih =>
    rw [List.foldl_cons, ih, foldl_boostStep, List.map_cons, List.sum_cons]
    push_cast
    ring

lemma calculateHeuristicBoost_eq (text : List Char) (intents : List String) :
    calculateHeuristicBoost text intents
      = jsMin ((countIndicatorMatches text intents : ℚ) / 10) (3/10) := by
  rw [calculateHeuristicBoost, countIndicatorMatches, foldl_boost_outer, zero_add]

lemma calculateHeuristicBoost_nonneg (text : List Char) (intents : List String) :
    0 ≤ calculateHeuristicBoost text intents := by
  rw [calculateHeuristicBoost_eq, jsMin_eq_min]
  refine le_min (div_nonneg (Nat.cast_nonneg _) (by norm_num)) (by norm_num)

lemma calculateHeuristicBoost_le (text : List Char) (intents : List String) :
    calculateHeuristicBoost text intents ≤ 3/10 := by
  rw [calculateHeuristicBoost_eq, jsMin_eq_min]
  exact min_le_right _ _

/-- Claim C7: for every passage text and every detected intent list, the heuristic
boost lies in `[0, 0.3]`: each indicator phrase of a detected intent present
in the lowercased passage text contributes `+0.1` (so the raw sum counts the
matching (intent, phrase) pairs), and the total is capped at `0.3` no matter
how many phrases or intents matched. -/
theorem heuristic_boost_bounds : ∀ (text : List Char) (intents : List String),
    0 ≤ calculateHeuristicBoost text intents ∧
    calculateHeuristicBoost text intents ≤ 3/10 ∧
    calculateHeuristicBoost text intents
      = jsMin ((countIndicatorMatches text intents : ℚ) / 10) (3/10) :=
  fun text intents =>
    ⟨calculateHeuristicBoost_nonneg text intents,
     calculateHeuristicBoost_le text intents,
     calculateHeuristicBoost_eq text intents⟩

/-- Witness for C7 at a concrete passage and intent list: three indicator
phrases match, the raw sum `0.3` meets the cap, and the bounds hold. -/
theorem heuristic_boost_bounds_witness :
    calculateHeuristicBoost ("it means x by practice".toList) ["definition", "howTo"] = 3/10 ∧
    countIndicatorMatches ("it means x by practice".toList) ["definition", "howTo"] = 3 ∧
    0 ≤ calculateHeuristicBoost ("it means x by practice".toList) ["definition", "howTo"] :=
  ⟨by with_unfolding_all decide, by decide,
   (heuristic_boost_bounds ("it means x by practice".toList) ["definition", "howTo"]).1⟩

/-- Claim C8: the intent classifier returns exactly the labels of
`QUESTION_PATTERNS` whose case-insensitive pattern matches the query (a
query may carry several intents), returns the singleton `["general"]` when
no pattern matches, and its output is always non-empty. -/
theorem intent_classifier_exact : ∀ query : List Char,
    detectQuestionIntent query ≠ [] ∧
    ((∀ tp ∈ QUESTION_PATTERNS, patternTest tp.2 query = false) →
      detectQuestionIntent query = ["general"]) ∧
    ((∃ tp ∈ QUESTION_PATTERNS, patternTest tp.2 query = true) →
      ∀ t : String,
        t ∈ detectQuestionIntent query ↔
          ∃ ps, (t, ps) ∈ QUESTION_PATTERNS ∧ patternTest ps query = true) := by
  intro query
  refine ⟨?_, ?_, ?_⟩
  · rw [detectQuestionIntent]
    split
    · next h =>
      intro hnil
      rw [hnil] at h
      exact absurd h (by decide)
    · exact fun h => absurd h (by decide)
  · intro hall
    rw [detectQuestionIntent]
    have hfil : QUESTION_PATTERNS.filter (fun tp => patternTest tp.2 query) = [] :=
      List.filter_eq_nil_iff.2 fun tp htp => by rw [hall tp htp]; decide
    rw [hfil]
    decide
  · rintro ⟨tp0, htp0, htest0⟩ t
    have hmem : tp0 ∈ QUESTION_PATTERNS.filter (fun tp => patternTest tp.2 query) :=
      List.mem_filter.2 ⟨htp0, htest0⟩
    have hpos : 0 < ((QUESTION_PATTERNS.filter
        (fun tp => patternTest tp.2 query)).map Prod.fst).length := by
      rw [List.length_map]
      exact List.length_pos.2 (List.ne_nil_of_mem hmem)
    rw [detectQuestionIntent, if_pos hpos]
    constructor
    · intro ht
      obtain ⟨tp, htp, rfl⟩ := List.mem_map.1 ht
      obtain ⟨htpat, htst⟩ := List.mem_filter.1 htp
      exact ⟨tp.2, htpat, htst⟩
    · rintro ⟨ps, hps, htst⟩
      exact List.mem_map.2 ⟨(t, ps), List.mem_filter.2 ⟨hps, htst⟩, rfl⟩

/-- Witness for C8 at a concrete query matching exactly one pattern, plus
the classifier-is-non-empty conclusion obtained from the theorem. -/
theorem intent_classifier_exact_witness :
    detectQuestionIntent ("what is intuition".toList) = ["definition"] ∧
    detectQuestionIntent ("what is intuition".toList) ≠ [] :=
  ⟨by decide, (intent_classifier_exact ("what is intuition".toList)).1⟩

/-- Claim C6 (amended): every hybrid query issued by the retriever requests a
fixed 20 candidates — which is 2 × the default result limit 10, but is not
scaled by the caller's limit — and applies the similarity floor 0.4; the
result limit defaults to 10 in the worker message handler. -/
theorem search_request_fixed : ∀ (engine : OramaQuery → List Hit) (query : List Char),
    (searchRequest query).limit = 20 ∧
    (searchRequest query).similarity = 2/5 ∧
    (searchRequest query).limit = 2 * 10 ∧
    (searchRequest query).mode = "hybrid" ∧
    onSearchMessage engine query none = semanticSearch engine query 10 :=
  fun _ _ => ⟨rfl, rfl, rfl, rfl, rfl⟩

/-- Counterexample for claim C6 as stated: a search with result limit 5 issues a
hybrid query requesting 20 candidates, not 2 × 5 = 10. -/
theorem search_request_not_two_times_limit :
    (searchRequest ("any query".toList)).limit = 20 ∧
    (searchRequest ("any query".toList)).limit ≠ 2 * 5 := by
  exact ⟨rfl, by decide⟩

/-- Claim C9: a query against an index yielding zero hits (in particular, an
empty index, or no candidate above the similarity floor) produces the empty
result list, with no error: the search pipeline is total on the zero-hit
engine. -/
theorem empty_index_empty_results : ∀ (query : List Char) (limit : Nat),
    semanticSearch (fun _ => []) query limit = [] := by
  intro query limit
  rw [semanticSearch, rankedResults]
  simp [scoredResults, normalizeScores]

/-- Counterexample for claim C3 as stated: on the empty text the chunker does not
return the empty chunk list. -/
theorem empty_text_chunk_counterexample : chunkTextWithWindow ("".toList) ≠ [] := by
  decide

/-- Claim C3 (amended): on the empty text the chunker returns exactly one chunk,
whose chunk text is empty (the `|| [text]` fallback turns the matchless
empty text into the single pseudo-sentence `""`). -/
theorem empty_text_one_empty_chunk :
    (chunkTextWithWindow ("".toList)).length = 1 ∧
    (chunkTextWithWindow ("".toList)).map Chunk.text = [[]] := by
  exact ⟨by decide, by decide⟩

lemma take_window_ne_empty (x : List Char) (rest : List (List Char)) :
    ((x :: rest).take WINDOW_SIZE).isEmpty = false := by
  rw [WINDOW_SIZE, List.take_succ_cons, List.isEmpty_cons]

lemma chunkLoop_cons_short (text : List Char) (x : List Char) (rest : List (List Char))
    (h : (x :: rest).length ≤ WINDOW_SIZE) :
    chunkLoop text (x :: rest) = [mkChunk text ((x :: rest).take WINDOW_SIZE)] := by
  rw [chunkLoop, take_window_ne_empty]
  simp only [Bool.false_eq_true, if_false, if_pos h]

lemma chunkLoop_cons_long (text : List Char) (x : List Char) (rest : List (List Char))
    (h : ¬ (x :: rest).length ≤ WINDOW_SIZE) :
    chunkLoop text (x :: rest)
      = mkChunk text ((x :: rest).take WINDOW_SIZE) :: chunkLoop text rest := by
  rw [chunkLoop, take_window_ne_empty]
  simp only [Bool.false_eq_true, if_false, if_neg h]

lemma mkChunk_text (text : List Char) (w : List (List Char)) :
    Chunk.text (mkChunk text w) = joinSp w := rfl

lemma jsIndexOf_nil_pat (s : List Char) : jsIndexOf s [] = 0 := by
  rw [jsIndexOf]
  have h : (List.range (s.length + 1)).find? (fun i => [].isPrefixOf (s.drop i)) = some 0 := by
    rw [List.range_succ_eq_map]
    refine List.find?_cons_of_pos _ ?_
    rw [List.isPrefixOf_iff_prefix]
    exact List.nil_prefix
  rw [h]
  rfl

lemma jsIndexOf_bounds (s pat : List Char) :
    jsIndexOf s pat = -1 ∨ (0 ≤ jsIndexOf s pat ∧ jsIndexOf s pat ≤ (s.length : Int)) := by
  rw [jsIndexOf]
  cases h : (List.range (s.length + 1)).find? (fun i => pat.isPrefixOf (s.drop i)) with
  | none => exact Or.inl rfl
  | some i =>
    refine Or.inr ⟨?_, ?_⟩
    · show (0 : Int) ≤ (i : Int)
      exact Int.ofNat_nonneg i
    · show (i : Int) ≤ (s.length : Int)
      have hmem := List.mem_of_find?_eq_some h
      rw [List.mem_range] at hmem
      exact_mod_cast Nat.le_of_lt_succ hmem

lemma headD_prefix_joinSp (w : List (List Char)) (hw : w ≠ []) :
    (w.headD []) <+: joinSp w := by
  cases w with
  | nil => exact absurd rfl hw
  | cons x rest =>
    cases rest with
    | nil => exact List.prefix_rfl
    | cons y t => exact List.prefix_append x (' ' :: joinSp (y :: t))

lemma mkChunk_ratio_le (text : List Char) (w : List (List Char)) (hw : w ≠ []) :
    Chunk.startRatio (mkChunk text w) ≤ Chunk.endRatio (mkChunk text w) := by
  show jsMax 0 _ ≤ jsMin 1 _
  rw [jsMax_eq_max, jsMin_eq_min]
  rcases Nat.eq_zero_or_pos text.length with h0 | hpos
  · rw [h0]
    push_cast
    rw [div_zero, div_zero]
    simp
  · have hlpos : (0 : ℚ) < (text.length : ℚ) := by exact_mod_cast hpos
    rcases jsIndexOf_bounds text (w.headD []) with hneg | ⟨hge, hle⟩
    · have hpat : w.headD [] ≠ [] := by
        intro hnil
        rw [hnil, jsIndexOf_nil_pat] at hneg
        exact absurd hneg (by decide)
      have hL : 1 ≤ (joinSp w).length := by
        have h1 : 1 ≤ (w.headD []).length := List.length_pos.2 hpat
        have h2 : (w.headD []).length ≤ (joinSp w).length :=
          List.IsPrefix.length_le (headD_prefix_joinSp w hw)
        omega
      rw [hneg]
      have hlt : ((-1 : Int) : ℚ) / (text.length : ℚ) < 0 := by
        apply div_neg_of_neg_of_pos (by norm_num) hlpos
      rw [max_eq_left hlt.le]
      refine le_min (by norm_num) (div_nonneg ?_ hlpos.le)
      have : (0 : Int) ≤ -1 + (joinSp w).length := by omega
      exact_mod_cast this
    · have hnum : (0 : ℚ) ≤ (jsIndexOf text (w.headD []) : ℚ) := by exact_mod_cast hge
      rw [max_eq_right (div_nonneg hnum hlpos.le)]
      refine le_min ?_ ?_
      · rw [div_le_one hlpos]
        exact_mod_cast hle
      · rw [div_le_div_iff_of_pos_right hlpos]
        push_cast
        linarith [Nat.cast_nonneg (α := ℚ) (joinSp w).length]

lemma chunkLoop_mem (text : List Char) :
    ∀ (s : List (List Char)), ∀ c ∈ chunkLoop text s,
      ∃ i, i < s.length ∧ ((s.drop i).take WINDOW_SIZE) ≠ [] ∧
        c = mkChunk text ((s.drop i).take WINDOW_SIZE) := by
  intro s
  induction s with
  | nil =>
    intro c hc
    rw [chunkLoop] at hc
    exact absurd hc (List.not_mem_nil c)
  | cons x rest ih =>
    intro c hc
    by_cases hlen : (x :: rest).length ≤ WINDOW_SIZE
    · rw [chunkLoop_cons_short text x rest hlen, List.mem_singleton] at hc
      refine ⟨0, by simp, ?_, by rw [List.drop_zero]; exact hc⟩
      rw [List.drop_zero, WINDOW_SIZE, List.take_succ_cons]
      exact List.cons_ne_nil _ _
    · rw [chunkLoop_cons_long text x rest hlen, List.mem_cons] at hc
      rcases hc with rfl | hc
      · refine ⟨0, by simp, ?_, by rw [List.drop_zero]⟩
        rw [List.drop_zero, WINDOW_SIZE, List.take_succ_cons]
        exact List.cons_ne_nil _ _
      · obtain ⟨i, hi, hne, heq⟩ := ih c hc
        refine ⟨i + 1, by simpa using Nat.succ_lt_succ hi, ?_, ?_⟩
        · rw [List.drop_succ_cons]
          exact hne
        · rw [List.drop_succ_cons]
          exact heq

lemma chunkLoop_covers (text : List Char) :
    ∀ (s : List (List Char)) (j : Nat), j < s.length →
      ∃ c ∈ chunkLoop text s, ∃ i, i ≤ j ∧ j < i + WINDOW_SIZE ∧ i < s.length ∧
        c = mkChunk text ((s.drop i).take WINDOW_SIZE) := by
  intro s
  induction s with
  | nil =>
    intro j hj
    exact absurd hj (by simp)
  | cons x rest ih =>
    intro j hj
    by_cases hlen : (x :: rest).length ≤ WINDOW_SIZE
    · refine ⟨mkChunk text ((x :: rest).take WINDOW_SIZE), ?_,
        0, Nat.zero_le j, ?_, by simp, by rw [List.drop_zero]⟩
      · rw [chunkLoop_cons_short text x rest hlen]
        exact List.mem_singleton_self _
      · have := List.length_cons x rest
        omega
    · by_cases hj3 : j < WINDOW_SIZE
      · refine ⟨mkChunk text ((x :: rest).take WINDOW_SIZE), ?_,
          0, Nat.zero_le j, by omega, by simp, by rw [List.drop_zero]⟩
        rw [chunkLoop_cons_long text x rest hlen]
        exact List.mem_cons_self _ _
      · have hj1 : j - 1 < rest.length := by
          rw [List.length_cons] at hj
          rw [WINDOW_SIZE] at hj3
          omega
        obtain ⟨c, hc, i, hi1, hi2, hi3, heq⟩ := ih (j - 1) hj1
        refine ⟨c, ?_, i + 1, ?_, ?_, ?_, ?_⟩
        · rw [chunkLoop_cons_long text x rest hlen]
          exact List.mem_cons_of_mem _ hc
        · rw [WINDOW_SIZE] at hj3
          omega
        · omega
        · rw [List.length_cons]
          omega
        · rw [List.drop_succ_cons]
          exact heq

lemma getElem_mem_window (s : List (List Char)) (i j : Nat)
    (h1 : i ≤ j) (h2 : j < i + WINDOW_SIZE) (h3 : j < s.length) :
    s[j] ∈ (s.drop i).take WINDOW_SIZE := by
  have hk : j - i < WINDOW_SIZE := by omega
  have hdlen : j - i < (s.drop i).length := by
    rw [List.length_drop]
    omega
  have htlen : j - i < ((s.drop i).take WINDOW_SIZE).length := by
    rw [List.length_take]
    omega
  have hval : ((s.drop i).take WINDOW_SIZE)[j - i] = s[j] := by
    rw [List.getElem_take, List.getElem_drop]
    congr 1
    omega
  rw [← hval]
  exact List.getElem_mem htlen

lemma mem_infix_joinSp : ∀ (w : List (List Char)) (a : List Char), a ∈ w → a <:+: joinSp w := by
  intro w
  induction w with
  | nil =>
    intro a ha
    exact absurd ha (List.not_mem_nil a)
  | cons x rest ih =>
    intro a ha
    cases rest with
    | nil =>
      rw [List.mem_singleton] at ha
      subst ha
      exact List.infix_rfl
    | cons y t =>
      rcases List.mem_cons.1 ha with rfl | hmem
      · exact List.IsPrefix.isInfix (List.prefix_append a (' ' :: joinSp (y :: t)))
      · obtain ⟨u, v, huv⟩ := ih a hmem
        refine ⟨x ++ ' ' :: u, v, ?_⟩
        show x ++ ' ' :: u ++ a ++ v = x ++ ' ' :: joinSp (y :: t)
        rw [← huv]
        simp

/-- Counterexample for claim C4 as stated: the non-empty text `" "` splits into
zero sentences (fewer than `WINDOW_SIZE`) yet the chunker returns no chunk
at all, and the non-empty one-sentence text `" Hello. "` yields one chunk
whose `startRatio` is `1/8`, not `0` (the leading blank is trimmed from the
sentence but counted by `indexOf`). -/
theorem chunker_short_text_counterexample :
    (" ".toList ≠ []) ∧
    (sentencesOf (" ".toList)).length < WINDOW_SIZE ∧
    chunkTextWithWindow (" ".toList) = [] ∧
    (sentencesOf (" Hello. ".toList)).length = 1 ∧
    (chunkTextWithWindow (" Hello. ".toList)).map Chunk.startRatio = [1/8] ∧
    ((1 : ℚ)/8 ≠ 0) := by
  refine ⟨by decide, by decide, by decide, by decide, ?_, by norm_num⟩
  with_unfolding_all decide

/-- Claim C4 (amended): for every input text that splits into at least one and
fewer than `WINDOW_SIZE` sentences, the chunker returns exactly one chunk,
whose text is the space-join of all sentences; that chunk has
`startRatio = 0` and `endRatio = 1` whenever the text begins with its first
sentence, the joined window spans exactly the text's length, and the text is
non-empty — in particular when the text is exactly one sentence without
surrounding whitespace. -/
theorem chunker_short_text_one_chunk : ∀ text : List Char,
    1 ≤ (sentencesOf text).length → (sentencesOf text).length < WINDOW_SIZE →
    (chunkTextWithWindow text).length = 1 ∧
    ∀ c ∈ chunkTextWithWindow text,
      c.text = joinSp (sentencesOf text) ∧
      (jsIndexOf text ((sentencesOf text).headD []) = 0 →
       (joinSp (sentencesOf text)).length = text.length →
       text ≠ [] →
       c.startRatio = 0 ∧ c.endRatio = 1) := by
  intro text h1 h2
  rcases hs : sentencesOf text with _ | ⟨x, rest⟩
  · rw [hs] at h1
    exact absurd h1 (by decide)
  · have hlen : (x :: rest).length ≤ WINDOW_SIZE := by
      rw [hs] at h2
      omega
    have htake : (x :: rest).take WINDOW_SIZE = x :: rest :=
      List.take_of_length_le hlen
    have hloop : chunkTextWithWindow text = [mkChunk text (x :: rest)] := by
      rw [chunkTextWithWindow, hs, chunkLoop_cons_short text x rest hlen, htake]
    rw [hloop]
    refine ⟨rfl, ?_⟩
    intro c hc
    rw [List.mem_singleton] at hc
    subst hc
    refine ⟨mkChunk_text text (x :: rest), ?_⟩
    intro hidx hjoin hne
    have hlpos : 0 < text.length := List.length_pos.2 hne
    have hlq : (0 : ℚ) < (text.length : ℚ) := by exact_mod_cast hlpos
    constructor
    · show jsMax 0 _ = 0
      rw [jsMax_eq_max, hidx]
      norm_num
    · show jsMin 1 _ = 1
      rw [jsMin_eq_min, hidx, hjoin]
      rw [zero_add]
      rw [Int.cast_natCast, div_self (ne_of_gt hlq)]
      exact min_self 1

/-- Witness for C4 (amended) at the one-sentence text `"Hello."`. -/
theorem chunker_short_text_one_chunk_witness :
    1 ≤ (sentencesOf ("Hello.".toList)).length ∧
    (sentencesOf ("Hello.".toList)).length < WINDOW_SIZE ∧
    (chunkTextWithWindow ("Hello.".toList)).length = 1 ∧
    (chunkTextWithWindow ("Hello.".toList)).map Chunk.startRatio = [0] ∧
    (chunkTextWithWindow ("Hello.".toList)).map Chunk.endRatio = [1] :=
  ⟨by decide, by decide,
   (chunker_short_text_one_chunk ("Hello.".toList) (by decide) (by decide)).1,
   by with_unfolding_all decide, by with_unfolding_all decide⟩

/-- Claim C5: for every input text, every sentence of the computed sentence list
occurs (as a contiguous substring) in the text of at least one chunk; every
chunk is built from a non-empty window of at most `WINDOW_SIZE` consecutive
sentences; and `startRatio ≤ endRatio` holds for every chunk. -/
theorem chunker_coverage : ∀ text : List Char,
    (∀ sent ∈ sentencesOf text, ∃ c ∈ chunkTextWithWindow text, sent <:+: c.text) ∧
    (∀ c ∈ chunkTextWithWindow text, ∃ i, i < (sentencesOf text).length ∧
       ((sentencesOf text).drop i).take WINDOW_SIZE ≠ [] ∧
       c.text = joinSp (((sentencesOf text).drop i).take WINDOW_SIZE)) ∧
    (∀ c ∈ chunkTextWithWindow text, c.startRatio ≤ c.endRatio) := by
  intro text
  refine ⟨?_, ?_, ?_⟩
  · intro sent hs
    obtain ⟨j, hj, rfl⟩ := List.mem_iff_getElem.1 hs
    obtain ⟨c, hc, i, hi1, hi2, hi3, heq⟩ := chunkLoop_covers text (sentencesOf text) j hj
    refine ⟨c, hc, ?_⟩
    rw [heq, mkChunk_text]
    exact mem_infix_joinSp _ _ (getElem_mem_window (sentencesOf text) i j hi1 hi2 hj)
  · intro c hc
    obtain ⟨i, hi, hne, heq⟩ := chunkLoop_mem text (sentencesOf text) c hc
    exact ⟨i, hi, hne, by rw [heq, mkChunk_text]⟩
  · intro c hc
    obtain ⟨i, hi, hne, heq⟩ := chunkLoop_mem text (sentencesOf text) c hc
    rw [heq]
    exact mkChunk_ratio_le text _ hne

/-- Witness for C5: on a four-sentence text, the second sentence occurs
inside some produced chunk's text. -/
theorem chunker_coverage_witness :
    ("Yo.".toList ∈ sentencesOf ("Hi. Yo. Ok. No.".toList)) ∧
    (∃ c ∈ chunkTextWithWindow ("Hi. Yo. Ok. No.".toList), ("Yo.".toList) <:+: c.text) :=
  ⟨by decide, (chunker_coverage ("Hi. Yo. Ok. No.".toList)).1 ("Yo.".toList) (by decide)⟩

lemma assocFind_eq_none_iff (k : String) :
    ∀ acc : List (String × SearchResult), assocFind k acc = none ↔ k ∉ acc.map Prod.fst := by
  intro acc
  induction acc with
  | nil => simp [assocFind]
  | cons kv rest ih =>
    rw [assocFind]
    by_cases h : kv.1 = k
    · simp [h]
    · simp [h, ih, Ne.symm h]

lemma assocFind_eq_some_mem (k : String) (v : SearchResult) :
    ∀ acc, assocFind k acc = some v → (k, v) ∈ acc := by
  intro acc
  induction acc with
  | nil => intro h; exact absurd h (by simp [assocFind])
  | cons kv rest ih =>
    intro h
    rw [assocFind] at h
    by_cases hk : kv.1 = k
    · rw [if_pos hk, Option.some_inj] at h
      subst h
      subst hk
      exact List.mem_cons_self _ _
    · rw [if_neg hk] at h
      exact List.mem_cons_of_mem _ (ih h)

lemma mapSet_of_not_mem (k : String) (v : SearchResult) :
    ∀ acc, k ∉ acc.map Prod.fst → mapSet k v acc = acc ++ [(k, v)] := by
  intro acc
  induction acc with
  | nil => intro _; rfl
  | cons kv rest ih =>
    intro h
    rw [List.map_cons, List.mem_cons] at h
    push_neg at h
    rw [mapSet, if_neg fun he => h.1 he.symm, ih h.2, List.cons_append]

lemma mapSet_keys_of_mem (k : String) (v : SearchResult) :
    ∀ acc, k ∈ acc.map Prod.fst → (mapSet k v acc).map Prod.fst = acc.map Prod.fst := by
  intro acc
  induction acc with
  | nil => intro h; exact absurd h (by simp)
  | cons kv rest ih =>
    intro h
    rw [mapSet]
    by_cases hk : kv.1 = k
    · rw [if_pos hk, List.map_cons, List.map_cons, hk]
    · rw [List.map_cons, List.mem_cons] at h
      rcases h with h | h
      · exact absurd h.symm hk
      · rw [if_neg hk, List.map_cons, List.map_cons, ih h]

lemma mem_mapSet_self (k : String) (v : SearchResult) :
    ∀ acc, (k, v) ∈ mapSet k v acc := by
  intro acc
  induction acc with
  | nil => exact List.mem_singleton_self _
  | cons kv rest ih =>
    rw [mapSet]
    by_cases hk : kv.1 = k
    · rw [if_pos hk]
      exact List.mem_cons_self _ _
    · rw [if_neg hk]
      exact List.mem_cons_of_mem _ ih

lemma mem_mapSet_of_mem_ne (k : String) (v : SearchResult) :
    ∀ acc (kv : String × SearchResult), kv ∈ acc → kv.1 ≠ k → kv ∈ mapSet k v acc := by
  intro acc
  induction acc with
  | nil => intro kv h _; exact absurd h (List.not_mem_nil kv)
  | cons kv0 rest ih =>
    intro kv h hne
    rw [mapSet]
    by_cases hk : kv0.1 = k
    · rw [if_pos hk]
      rcases List.mem_cons.1 h with rfl | h
      · exact absurd hk hne
      · exact List.mem_cons_of_mem _ h
    · rw [if_neg hk]
      rcases List.mem_cons.1 h with rfl | h
      · exact List.mem_cons_self _ _
      · exact List.mem_cons_of_mem _ (ih kv h hne)

lemma mem_of_mem_mapSet (k : String) (v : SearchResult) :
    ∀ acc (kv : String × SearchResult), (acc.map Prod.fst).Nodup →
      kv ∈ mapSet k v acc → kv = (k, v) ∨ (kv ∈ acc ∧ kv.1 ≠ k) := by
  intro acc
  induction acc with
  | nil =>
    intro kv _ h
    rw [mapSet, List.mem_singleton] at h
    exact Or.inl h
  | cons kv0 rest ih =>
    intro kv hnd h
    rw [List.map_cons, List.nodup_cons] at hnd
    rw [mapSet] at h
    by_cases hk : kv0.1 = k
    · rw [if_pos hk] at h
      rcases List.mem_cons.1 h with rfl | h
      · exact Or.inl rfl
      · refine Or.inr ⟨List.mem_cons_of_mem _ h, ?_⟩
        intro hkv
        apply hnd.1
        rw [hk, ← hkv]
        exact List.mem_map.2 ⟨kv, h, rfl⟩
    · rw [if_neg hk] at h
      rcases List.mem_cons.1 h with rfl | h
      · exact Or.inr ⟨List.mem_cons_self _ _, hk⟩
      · rcases ih kv hnd.2 h with h1 | ⟨h1, h2⟩
        · exact Or.inl h1
        · exact Or.inr ⟨List.mem_cons_of_mem _ h1, h2⟩

lemma mapSet_keys_nodup (k : String) (v : SearchResult) (acc : List (String × SearchResult))
    (hnd : (acc.map Prod.fst).Nodup) : ((mapSet k v acc).map Prod.fst).Nodup := by
  by_cases hk : k ∈ acc.map Prod.fst
  · rw [mapSet_keys_of_mem k v acc hk]
    exact hnd
  · rw [mapSet_of_not_mem k v acc hk, List.map_append, List.map_singleton]
    rw [(List.perm_append_singleton _ _).nodup_iff]
    exact List.nodup_cons.2 ⟨hk, hnd⟩

lemma assocFind_of_mem_nodup (k : String) (v : SearchResult) :
    ∀ acc, (acc.map Prod.fst).Nodup → (k, v) ∈ acc → assocFind k acc = some v := by
  intro acc
  induction acc with
  | nil => intro _ h; exact absurd h (List.not_mem_nil _)
  | cons kv0 rest ih =>
    intro hnd h
    rw [List.map_cons, List.nodup_cons] at hnd
    rw [assocFind]
    by_cases hk : kv0.1 = k
    · rw [if_pos hk, Option.some_inj]
      rcases List.mem_cons.1 h with heq | h
      · rw [← heq]
      · exact absurd (List.mem_map.2 ⟨(k, v), h, hk.symm⟩) hnd.1
    · rw [if_neg hk]
      rcases List.mem_cons.1 h with heq | h
      · exact absurd (congrArg Prod.fst heq).symm hk
      · exact ih hnd.2 h

lemma scoredEntryOf_score (doc : OramaDoc) (s : ℚ) : (scoredEntryOf doc s).score = s := rfl

lemma scoredEntryOf_id (doc : OramaDoc) (s : ℚ) :
    (scoredEntryOf doc s).segment.id = doc.segmentId := rfl

lemma rerankStep_inv {intents : List String} {processed : List Hit}
    {acc : List (String × SearchResult)} (hit : Hit)
    (h : RerankInv intents processed acc) :
    RerankInv intents (processed ++ [hit]) (rerankStep intents acc hit) := by
  cases hfind : assocFind hit.document.segmentId acc with
  | none =>
    have hknot : hit.document.segmentId ∉ acc.map Prod.fst :=
      (assocFind_eq_none_iff _ acc).1 hfind
    simp only [rerankStep, hfind]
    rw [mapSet_of_not_mem _ _ acc hknot]
    refine ⟨?_, ?_, ?_, ?_⟩
    · rw [List.map_append, List.map_singleton]
      rw [(List.perm_append_singleton _ _).nodup_iff]
      exact List.nodup_cons.2 ⟨hknot, h.nodupKeys⟩
    · intro kv hkv
      rcases List.mem_append.1 hkv with hold | hnew
      · exact h.keyEq kv hold
      · rw [List.mem_singleton] at hnew
        rw [hnew]
        exact scoredEntryOf_id _ _
    · intro kv hkv
      rcases List.mem_append.1 hkv with hold | hnew
      · obtain ⟨hit0, hh0, hsid0, heq0, hmax0⟩ := h.best kv hold
        refine ⟨hit0, List.mem_append_left _ hh0, hsid0, heq0, ?_⟩
        intro hit2 hh2 hsid2
        rcases List.mem_append.1 hh2 with hp | hp
        · exact hmax0 hit2 hp hsid2
        · rw [List.mem_singleton] at hp
          rw [hp] at hsid2
          exfalso
          apply hknot
          rw [hsid2]
          exact List.mem_map.2 ⟨kv, hold, rfl⟩
      · rw [List.mem_singleton] at hnew
        rw [hnew]
        refine ⟨hit, List.mem_append_right _ (List.mem_singleton_self _), rfl, rfl, ?_⟩
        intro hit2 hh2 hsid2
        rcases List.mem_append.1 hh2 with hp | hp
        · exact absurd (h.complete hit2 hp) (by rw [hsid2]; exact hknot)
        · rw [List.mem_singleton] at hp
          rw [hp]
    · intro hit2 hh2
      rw [List.map_append, List.map_singleton]
      rcases List.mem_append.1 hh2 with hp | hp
      · exact List.mem_append_left _ (h.complete hit2 hp)
      · rw [List.mem_singleton] at hp
        rw [hp]
        exact List.mem_append_right _ (List.mem_singleton_self _)
  | some existing =>
    have hmem0 : (hit.document.segmentId, existing) ∈ acc := assocFind_eq_some_mem _ _ acc hfind
    have hkin : hit.document.segmentId ∈ acc.map Prod.fst :=
      List.mem_map.2 ⟨_, hmem0, rfl⟩
    obtain ⟨hit0, hh0, hsid0, heq0, hmax0⟩ := h.best _ hmem0
    have heq0x : existing = scoredEntryOf hit0.document (finalScoreOf intents hit0) := heq0
    have hex0 : existing.score = finalScoreOf intents hit0 := by
      rw [heq0x, scoredEntryOf_score]
    by_cases hlt : existing.score < finalScoreOf intents hit
    · simp only [rerankStep, hfind, if_pos hlt]
      refine ⟨?_, ?_, ?_, ?_⟩
      · exact mapSet_keys_nodup _ _ acc h.nodupKeys
      · intro kv hkv
        rcases mem_of_mem_mapSet _ _ acc kv h.nodupKeys hkv with hnew | ⟨hold, _⟩
        · rw [hnew]
          exact scoredEntryOf_id _ _
        · exact h.keyEq kv hold
      · intro kv hkv
        rcases mem_of_mem_mapSet _ _ acc kv h.nodupKeys hkv with hnew | ⟨hold, hne⟩
        · rw [hnew]
          refine ⟨hit, List.mem_append_right _ (List.mem_singleton_self _), rfl, rfl, ?_⟩
          intro hit2 hh2 hsid2
          rcases List.mem_append.1 hh2 with hp | hp
          · exact le_trans (hmax0 hit2 hp hsid2) (le_of_lt (hex0 ▸ hlt))
          · rw [List.mem_singleton] at hp
            rw [hp]
        · obtain ⟨hit1, hh1, hsid1, heq1, hmax1⟩ := h.best kv hold
          refine ⟨hit1, List.mem_append_left _ hh1, hsid1, heq1, ?_⟩
          intro hit2 hh2 hsid2
          rcases List.mem_append.1 hh2 with hp | hp
          · exact hmax1 hit2 hp hsid2
          · rw [List.mem_singleton] at hp
            rw [hp] at hsid2
            exact absurd hsid2 hne.symm
      · intro hit2 hh2
        rw [mapSet_keys_of_mem _ _ acc hkin]
        rcases List.mem_append.1 hh2 with hp | hp
        · exact h.complete hit2 hp
        · rw [List.mem_singleton] at hp
          rw [hp]
          exact hkin
    · simp only [rerankStep, hfind, if_neg hlt]
      refine ⟨h.nodupKeys, h.keyEq, ?_, ?_⟩
      · intro kv hkv
        obtain ⟨hit1, hh1, hsid1, heq1, hmax1⟩ := h.best kv hkv
        refine ⟨hit1, List.mem_append_left _ hh1, hsid1, heq1, ?_⟩
        intro hit2 hh2 hsid2
        rcases List.mem_append.1 hh2 with hp | hp
        · exact hmax1 hit2 hp hsid2
        · rw [List.mem_singleton] at hp
          rw [hp] at hsid2 ⊢
          by_cases hkk : kv.1 = hit.document.segmentId
          · have hveq : kv.2 = existing := by
              have hfk := assocFind_of_mem_nodup kv.1 kv.2 acc h.nodupKeys (by
                have hkv2 : (kv.1, kv.2) = kv := rfl
                rw [hkv2]
                exact hkv)
              rw [hkk, hfind] at hfk
              exact (Option.some_inj.1 hfk).symm
            have hs1 : finalScoreOf intents hit1 = existing.score := by
              have heq1x : kv.2.score = finalScoreOf intents hit1 := by
                rw [heq1, scoredEntryOf_score]
              rw [← heq1x, hveq]
            rw [← hs1] at hlt
            exact le_of_not_lt hlt
          · rw [hsid2] at hkk
            exact absurd rfl hkk
      · intro hit2 hh2
        rcases List.mem_append.1 hh2 with hp | hp
        · exact h.complete hit2 hp
        · rw [List.mem_singleton] at hp
          rw [hp]
          exact hkin

lemma foldl_rerank_inv (intents : List String) :
    ∀ (hits : List Hit) (processed : List Hit) (acc : List (String × SearchResult)),
      RerankInv intents processed acc →
      RerankInv intents (processed ++ hits) (hits.foldl (rerankStep intents) acc) := by
  intro hits
  induction hits with
  | nil =>
    intro processed acc h
    simpa using h
  | cons hit rest ih =>
    intro processed acc h
    have h2 := ih (processed ++ [hit]) _ (rerankStep_inv hit h)
    rw [List.append_assoc, List.singleton_append] at h2
    exact h2

lemma scoredResults_inv (intents : List String) (hits : List Hit) :
    RerankInv intents hits (scoredResults intents hits) := by
  have h0 : RerankInv intents [] [] :=
    ⟨List.nodup_nil, by intro kv h; exact absurd h (List.not_mem_nil kv),
     by intro kv h; exact absurd h (List.not_mem_nil kv),
     by intro hit h; exact absurd h (List.not_mem_nil hit)⟩
  have h := foldl_rerank_inv intents hits [] [] h0
  rw [List.nil_append] at h
  exact h

lemma rankedResults_subset_values (engine : OramaQuery → List Hit) (query : List Char)
    (limit : Nat) :
    ∀ r ∈ rankedResults engine query limit,
      r ∈ (scoredResults (detectQuestionIntent query) (engine (searchRequest query))).map
        Prod.snd := by
  intro r hr
  simp only [rankedResults] at hr
  have hr2 := (List.take_sublist limit _).subset hr
  exact (List.perm_insertionSort byScoreDesc _).subset hr2

lemma rankedResults_mem (engine : OramaQuery → List Hit) (query : List Char) (limit : Nat) :
    ∀ r ∈ rankedResults engine query limit,
      ∃ hit ∈ engine (searchRequest query),
        r = scoredEntryOf hit.document (finalScoreOf (detectQuestionIntent query) hit) ∧
        ∀ hit2 ∈ engine (searchRequest query),
          hit2.document.segmentId = hit.document.segmentId →
          finalScoreOf (detectQuestionIntent query) hit2
            ≤ finalScoreOf (detectQuestionIntent query) hit := by
  intro r hr
  obtain ⟨kv, hkv, hsnd⟩ :=
    List.mem_map.1 (rankedResults_subset_values engine query limit r hr)
  obtain ⟨hit, hh, hsid, heq, hmax⟩ :=
    (scoredResults_inv (detectQuestionIntent query) (engine (searchRequest query))).best kv hkv
  refine ⟨hit, hh, by rw [← hsnd]; exact heq, ?_⟩
  intro hit2 hh2 hsid2
  exact hmax hit2 hh2 (by rw [hsid2, hsid])

lemma rankedResults_sorted (engine : OramaQuery → List Hit) (query : List Char) (limit : Nat) :
    List.Pairwise byScoreDesc (rankedResults engine query limit) := by
  simp only [rankedResults]
  exact List.Pairwise.sublist (List.take_sublist limit _)
    (List.sorted_insertionSort byScoreDesc _)

lemma rankedResults_ids_nodup (engine : OramaQuery → List Hit) (query : List Char)
    (limit : Nat) :
    List.Pairwise (fun a b : SearchResult => a.segment.id ≠ b.segment.id)
      (rankedResults engine query limit) := by
  have hinv := scoredResults_inv (detectQuestionIntent query) (engine (searchRequest query))
  have hvals : ((scoredResults (detectQuestionIntent query)
      (engine (searchRequest query))).map Prod.snd).map (fun r => r.segment.id)
      = (scoredResults (detectQuestionIntent query) (engine (searchRequest query))).map
        Prod.fst := by
    rw [List.map_map]
    exact List.map_congr_left fun kv hkv => hinv.keyEq kv hkv
  have hnd : (((scoredResults (detectQuestionIntent query)
      (engine (searchRequest query))).map Prod.snd).map fun r => r.segment.id).Nodup := by
    rw [hvals]
    exact hinv.nodupKeys
  have hnd2 : ((rankedResults engine query limit).map fun r => r.segment.id).Nodup := by
    simp only [rankedResults]
    rw [List.map_take]
    refine List.Nodup.sublist (List.take_sublist limit _) ?_
    rw [((List.perm_insertionSort byScoreDesc _).map fun r => r.segment.id).nodup_iff]
    exact hnd
  exact List.pairwise_map.1 hnd2

lemma rankedResults_score_nonneg (engine : OramaQuery → List Hit) (query : List Char)
    (limit : Nat) (h : ∀ hit ∈ engine (searchRequest query), 0 ≤ hit.score) :
    ∀ r ∈ rankedResults engine query limit, 0 ≤ r.score := by
  intro r hr
  obtain ⟨hit, hh, heq, _⟩ := rankedResults_mem engine query limit r hr
  rw [heq, scoredEntryOf_score, finalScoreOf]
  have h1 := h hit hh
  have h2 := calculateHeuristicBoost_nonneg hit.document.text (detectQuestionIntent query)
  linarith

lemma normalizeScores_cons (r0 : SearchResult) (rs : List SearchResult) :
    normalizeScores (r0 :: rs)
      = (r0 :: rs).map fun r =>
          { r with score := jsMin (r.score / (r0.score * (11/10))) (99/100) } := rfl

lemma normalizeScores_map_segment (l : List SearchResult) :
    (normalizeScores l).map SearchResult.segment = l.map SearchResult.segment := by
  cases l with
  | nil => rfl
  | cons r0 rs =>
    rw [normalizeScores_cons, List.map_map]
    rfl

lemma documentsToIndexFor_fields (embedder : List Char → List ℚ) (seg : TranscriptSegment) :
    ∀ doc ∈ documentsToIndexFor embedder seg,
      doc.segmentId = seg.id ∧ doc.fullSegmentText = seg.text ∧
      doc.start = seg.start ∧ doc.endTime = seg.endTime := by
  intro doc hdoc
  rw [documentsToIndexFor] at hdoc
  obtain ⟨ji, _, heq⟩ := List.mem_filterMap.1 hdoc
  by_cases hlen : (embedder ji.2.text).length = EMBEDDING_DIM
  · rw [if_pos hlen, Option.some_inj] at heq
    rw [← heq]
    exact ⟨rfl, rfl, rfl, rfl⟩
  · rw [if_neg hlen] at heq
    exact absurd heq (by simp)

/-- Claim C1: given non-negative raw hybrid scores, every returned score is
non-negative and strictly below 1; the returned scores are exactly the
pre-normalization scores divided by `topScore * 1.1` and capped at `0.99`;
normalization changes no segment and no position; and the returned list is
still sorted by descending score (relative order is preserved). -/
theorem search_score_normalization :
    ∀ (engine : OramaQuery → List Hit) (query : List Char) (limit : Nat),
    (∀ hit ∈ engine (searchRequest query), 0 ≤ hit.score) →
    (∀ r ∈ semanticSearch engine query limit, 0 ≤ r.score ∧ r.score < 1) ∧
    List.map SearchResult.score (semanticSearch engine query limit)
      = List.map (fun r => jsMin (r.score /
          (SearchResult.score (List.headD (rankedResults engine query limit) dfltResult)
            * (11/10))) (99/100))
        (rankedResults engine query limit) ∧
    List.map SearchResult.segment (semanticSearch engine query limit)
      = List.map SearchResult.segment (rankedResults engine query limit) ∧
    List.Pairwise byScoreDesc (semanticSearch engine query limit) := by
  intro engine query limit h
  have hnn : ∀ r ∈ rankedResults engine query limit, 0 ≤ r.score :=
    rankedResults_score_nonneg engine query limit h
  have hsorted := rankedResults_sorted engine query limit
  rcases hrk : rankedResults engine query limit with _ | ⟨r0, rs⟩
  · rw [semanticSearch, hrk]
    exact ⟨by intro r hr; exact absurd hr (List.not_mem_nil r), rfl, rfl, List.Pairwise.nil⟩
  · rw [hrk] at hnn hsorted
    have hm0 : 0 ≤ r0.score := hnn r0 (List.mem_cons_self _ _)
    rw [semanticSearch, hrk, normalizeScores_cons]
    refine ⟨?_, ?_, ?_, ?_⟩
    · intro r hr
      obtain ⟨r1, hr1, hre⟩ := List.mem_map.1 hr
      rw [← hre]
      constructor
      · show 0 ≤ jsMin _ _
        rw [jsMin_eq_min]
        exact le_min (div_nonneg (hnn r1 hr1) (mul_nonneg hm0 (by norm_num))) (by norm_num)
      · show jsMin _ _ < 1
        rw [jsMin_eq_min]
        calc min (r1.score / (r0.score * (11/10))) (99/100) ≤ 99/100 := min_le_right _ _
        _ < 1 := by norm_num
    · rw [List.map_map]
      rfl
    · rw [List.map_map]
      rfl
    · rw [List.pairwise_map]
      refine hsorted.imp ?_
      intro a b hab
      show jsMin (b.score / (r0.score * (11/10))) (99/100)
        ≤ jsMin (a.score / (r0.score * (11/10))) (99/100)
      rw [jsMin_eq_min, jsMin_eq_min]
      refine min_le_min ?_ le_rfl
      rcases eq_or_lt_of_le hm0 with heq0 | hpos
      · rw [← heq0]
        simp
      · exact (div_le_div_iff_of_pos_right (mul_pos hpos (by norm_num))).2 hab

/-- Witness for C1 on a three-hit engine with non-negative scores: the
hypothesis holds, the normalized scores are `[10/11, 15/22]`, and the
score bounds follow from the theorem. -/
theorem search_score_normalization_witness :
    (∀ hit ∈ demoEngine (searchRequest demoQuery), 0 ≤ hit.score) ∧
    (semanticSearch demoEngine demoQuery 10).map SearchResult.score = [10/11, 15/22] ∧
    (∀ r ∈ semanticSearch demoEngine demoQuery 10, 0 ≤ r.score ∧ r.score < 1) :=
  ⟨by with_unfolding_all decide, by with_unfolding_all decide,
   (search_score_normalization demoEngine demoQuery 10 (by with_unfolding_all decide)).1⟩

/-- Claim C2: no two search results share a segment id; every result is built
from a hybrid hit of that segment whose boosted score is maximal among the
segment's hits, and it carries the hit document's full segment text and the
segment's start and end times (not the chunk text); and when the engine's
hits come from documents the indexer built for transcript segments, each
result carries the parent segment's own text and time range. -/
theorem dedup_by_segment :
    ∀ (engine : OramaQuery → List Hit) (query : List Char) (limit : Nat),
    List.Pairwise (fun a b : SearchResult => a.segment.id ≠ b.segment.id)
      (semanticSearch engine query limit) ∧
    (∀ r ∈ semanticSearch engine query limit,
      ∃ hit ∈ engine (searchRequest query),
        r.segment.id = hit.document.segmentId ∧
        r.segment.text = hit.document.fullSegmentText ∧
        r.segment.start = hit.document.start ∧
        r.segment.endTime = hit.document.endTime ∧
        ∀ hit2 ∈ engine (searchRequest query),
          hit2.document.segmentId = hit.document.segmentId →
          finalScoreOf (detectQuestionIntent query) hit2
            ≤ finalScoreOf (detectQuestionIntent query) hit) ∧
    (∀ (segments : List TranscriptSegment) (embedder : List Char → List ℚ),
      (∀ hit ∈ engine (searchRequest query), ∃ seg ∈ segments,
         hit.document ∈ documentsToIndexFor embedder seg) →
      ∀ r ∈ semanticSearch engine query limit, ∃ seg ∈ segments,
        r.segment.id = seg.id ∧ r.segment.text = seg.text ∧
        r.segment.start = seg.start ∧ r.segment.endTime = seg.endTime) := by
  intro engine query limit
  have hmemE : ∀ r ∈ semanticSearch engine query limit,
      ∃ r1 ∈ rankedResults engine query limit, r.segment = r1.segment := by
    intro r hr
    rw [semanticSearch] at hr
    rcases hrk : rankedResults engine query limit with _ | ⟨r0, rs⟩
    · rw [hrk] at hr
      exact absurd hr (List.not_mem_nil r)
    · rw [hrk, normalizeScores_cons] at hr
      obtain ⟨r1, hr1, hre⟩ := List.mem_map.1 hr
      exact ⟨r1, hr1, by rw [← hre]⟩
  refine ⟨?_, ?_, ?_⟩
  · have hpair := rankedResults_ids_nodup engine query limit
    have hseg : (semanticSearch engine query limit).map SearchResult.segment
        = (rankedResults engine query limit).map SearchResult.segment :=
      normalizeScores_map_segment _
    have hids : ((semanticSearch engine query limit).map fun r => r.segment.id)
        = ((rankedResults engine query limit).map fun r => r.segment.id) := by
      have h1 : ((semanticSearch engine query limit).map SearchResult.segment).map
          Segment.id = ((rankedResults engine query limit).map SearchResult.segment).map
          Segment.id := by rw [hseg]
      rw [List.map_map, List.map_map] at h1
      exact h1
    rw [← List.pairwise_map (f := fun r : SearchResult => r.segment.id)
      (R := fun a b => a ≠ b), hids, List.pairwise_map]
    exact hpair
  · intro r hr
    obtain ⟨r1, hr1, hseg⟩ := hmemE r hr
    obtain ⟨hit, hh, heq, hmax⟩ := rankedResults_mem engine query limit r1 hr1
    refine ⟨hit, hh, ?_, ?_, ?_, ?_, hmax⟩ <;> rw [hseg, heq] <;> rfl
  · intro segments embedder hsrc r hr
    obtain ⟨r1, hr1, hseg⟩ := hmemE r hr
    obtain ⟨hit, hh, heq, _⟩ := rankedResults_mem engine query limit r1 hr1
    obtain ⟨seg, hsg, hdoc⟩ := hsrc hit hh
    obtain ⟨f1, f2, f3, f4⟩ := documentsToIndexFor_fields embedder seg hit.document hdoc
    refine ⟨seg, hsg, ?_, ?_, ?_, ?_⟩ <;> rw [hseg, heq]
    · exact f1
    · exact f2
    · exact f3
    · exact f4

/-- Witness for C2: the demo engine returns two hits for segment `a` and
one for segment `b`; the search yields two results with distinct segment
ids, and the pairwise-distinctness conclusion is the theorem's. -/
theorem dedup_by_segment_witness :
    ((semanticSearch demoEngine demoQuery 10).map (fun r => r.segment.id) = ["a", "b"]) ∧
    List.Pairwise (fun a b : SearchResult => a.segment.id ≠ b.segment.id)
      (semanticSearch demoEngine demoQuery 10) :=
  ⟨by with_unfolding_all decide, (dedup_by_segment demoEngine demoQuery 10).1⟩

/-- Claim C10: when the pre-normalization result list is non-empty and its top
boosted score is positive, every normalized score equals the raw score
divided by `topScore * 1.1`, is at most `10/11` (so the `0.99` cap never
binds, `10/11 < 99/100`), and the top returned score is exactly `10/11`. -/
theorem top_score_ten_elevenths :
    ∀ (engine : OramaQuery → List Hit) (query : List Char) (limit : Nat),
    rankedResults engine query limit ≠ [] →
    0 < SearchResult.score (List.headD (rankedResults engine query limit) dfltResult) →
    List.map SearchResult.score (semanticSearch engine query limit)
      = List.map (fun r => r.score /
          (SearchResult.score (List.headD (rankedResults engine query limit) dfltResult)
            * (11/10)))
        (rankedResults engine query limit) ∧
    (∀ r ∈ semanticSearch engine query limit, r.score ≤ 10/11) ∧
    SearchResult.score (List.headD (semanticSearch engine query limit) dfltResult)
      = 10/11 := by
  intro engine query limit hne hpos
  have hsorted := rankedResults_sorted engine query limit
  rcases hrk : rankedResults engine query limit with _ | ⟨r0, rs⟩
  · exact absurd hrk hne
  · rw [hrk] at hpos hsorted
    have hp0 : 0 < r0.score := hpos
    have hle : ∀ r ∈ r0 :: rs, r.score ≤ r0.score := by
      intro r hr
      rcases List.mem_cons.1 hr with rfl | hr
      · exact le_refl _
      · exact (List.pairwise_cons.1 hsorted).1 r hr
    have hden : 0 < r0.score * (11/10) := mul_pos hp0 (by norm_num)
    have htop : r0.score / (r0.score * (11/10)) = 10/11 := by
      rw [div_mul_eq_div_div, div_self (ne_of_gt hp0)]
      norm_num
    have hkey : ∀ r ∈ r0 :: rs,
        jsMin (r.score / (r0.score * (11/10))) (99/100)
          = r.score / (r0.score * (11/10)) := by
      intro r hr
      rw [jsMin_eq_min]
      refine min_eq_left ?_
      calc r.score / (r0.score * (11/10))
          ≤ r0.score / (r0.score * (11/10)) :=
            (div_le_div_iff_of_pos_right hden).2 (hle r hr)
        _ = 10/11 := htop
        _ ≤ 99/100 := by norm_num
    have hcap : ∀ r ∈ r0 :: rs, r.score / (r0.score * (11/10)) ≤ 10/11 := by
      intro r hr
      calc r.score / (r0.score * (11/10))
          ≤ r0.score / (r0.score * (11/10)) :=
            (div_le_div_iff_of_pos_right hden).2 (hle r hr)
        _ = 10/11 := htop
    refine ⟨?_, ?_, ?_⟩
    · rw [semanticSearch, hrk, normalizeScores_cons, List.map_map]
      refine List.map_congr_left ?_
      intro r hr
      show jsMin (r.score / (r0.score * (11/10))) (99/100) = _
      rw [hkey r hr]
      rfl
    · intro r hr
      rw [semanticSearch, hrk, normalizeScores_cons] at hr
      obtain ⟨r1, hr1, hre⟩ := List.mem_map.1 hr
      rw [← hre]
      show jsMin (r1.score / (r0.score * (11/10))) (99/100) ≤ 10/11
      rw [hkey r1 hr1]
      exact hcap r1 hr1
    · rw [semanticSearch, hrk, normalizeScores_cons]
      show jsMin (r0.score / (r0.score * (11/10))) (99/100) = 10/11
      rw [hkey r0 (List.mem_cons_self _ _)]
      exact htop

/-- Witness for C10: the demo search has a non-empty ranked list with top
raw score 1, and the top returned score is exactly `10/11`. -/
theorem top_score_ten_elevenths_witness :
    (rankedResults demoEngine demoQuery 10 ≠ []) ∧
    (0 < SearchResult.score (List.headD (rankedResults demoEngine demoQuery 10) dfltResult)) ∧
    SearchResult.score (List.headD (semanticSearch demoEngine demoQuery 10) dfltResult)
      = 10/11 :=
  ⟨by with_unfolding_all decide, by with_unfolding_all decide,
   (top_score_ten_elevenths demoEngine demoQuery 10 (by with_unfolding_all decide)
     (by with_unfolding_all decide)).2.2⟩
